import Mathlib

/-!
Shallow embedding of `src/PolynomialSolver.js` (the Hashira polynomial
solver): the base-N digit decoder `decodeBigInt`, the root-to-coefficient
synthesizer `buildPolynomialFromRoots`, and the per-test-case driver
`processSingleTestCase`.  JavaScript `BigInt` values are modelled as `Int`;
JavaScript strings as Lean `String`/`List Char`; thrown `Error`s as
`Except` with an inductive error type whose constructors correspond to the
distinct `throw` sites of the source.
-/

deriving instance DecidableEq for Except

namespace PolynomialSolver

/-- Code points of the characters treated as whitespace by JavaScript's
`String.prototype.trim` and by `parseInt` (WhiteSpace plus LineTerminator). -/
def jsWsCodes : List Nat :=
  [9, 10, 11, 12, 13, 32, 160, 0x1680,
   0x2000, 0x2001, 0x2002, 0x2003, 0x2004, 0x2005, 0x2006, 0x2007,
   0x2008, 0x2009, 0x200a, 0x2028, 0x2029, 0x202f, 0x205f, 0x3000, 0xfeff]

/-- Whether a character is JavaScript whitespace. -/
def jsWs (c : Char) : Bool := jsWsCodes.contains c.toNat

/-- Remove trailing JavaScript whitespace from a character list. -/
def jsTrimEnd : List Char → List Char
  | [] => []
  | c :: cs =>
    let r := jsTrimEnd cs
    if r = [] ∧ jsWs c then [] else c :: r

/-- JavaScript `String.prototype.trim`: drop leading and trailing whitespace. -/
def jsTrim (l : List Char) : List Char :=
  jsTrimEnd (l.dropWhile (fun c => jsWs c))

/-- JavaScript `parseInt(str, 10)`: skip leading whitespace, read an optional
sign, then the longest prefix of decimal digits; `none` models `NaN` (no
digits found).  The float result of `parseInt` is integer-valued whenever it
is not `NaN`, and the source only compares it against 2 and 36
(`Number.isInteger` only rules out `NaN` there), so returning the exact
integer is observationally faithful. -/
def parseIntBase10 (str : String) : Option Int :=
  let l := str.data.dropWhile (fun c => jsWs c)
  let p : Int × List Char :=
    match l with
    | '-' :: t => (-1, t)
    | '+' :: t => (1, t)
    | _ => (1, l)
  let ds := p.2.takeWhile (fun c => c.isDigit)
  if ds = [] then none
  else some (p.1 * (ds.foldl (fun a c => a * 10 + ((c.toNat - '0'.toNat : Nat) : Int)) 0))

/-- The distinct `throw` sites of `charToDigit` / `decodeBigInt`, with the
data each message interpolates. -/
inductive DecodeError where
  | invalidBase (baseStr : String)
  | emptyValueStr
  | onlySignNoDigits
  | invalidDigitChar (ch : Char)
  | digitOutOfRange (ch : Char) (base : Int)
deriving DecidableEq, Repr

/-- The error taxonomy of the specification (§7). -/
inductive ErrKind where
  | invalidBase
  | emptyValue
  | invalidDigitChar
  | digitOutOfRange
deriving DecidableEq, Repr

/-- Map a concrete decoder error to the specification's error kind: both the
`Empty value string` and the `Value is only sign, no digits` throws are
`EmptyValue` ("digit string empty after removing an optional sign"). -/
def DecodeError.kind : DecodeError → ErrKind
  | .invalidBase _ => .invalidBase
  | .emptyValueStr => .emptyValue
  | .onlySignNoDigits => .emptyValue
  | .invalidDigitChar _ => .invalidDigitChar
  | .digitOutOfRange _ _ => .digitOutOfRange

/-- `charToDigit` from the source: lowercase the character, map `0`-`9` to
0-9 and `a`-`z` to 10-35, otherwise throw.  `Char.toLower` coincides with
JavaScript `toLowerCase` on the ASCII range this function distinguishes. -/
def charToDigit (ch : Char) : Except DecodeError Nat :=
  let c := ch.toLower
  if '0' ≤ c ∧ c ≤ '9' then .ok (c.toNat - '0'.toNat)
  else if 'a' ≤ c ∧ c ≤ 'z' then .ok (10 + (c.toNat - 'a'.toNat))
  else .error (.invalidDigitChar c)

/-- The accumulation loop of `decodeBigInt`: for each character, map it to a
digit, reject digits `≥ base`, and set `acc = acc * base + digit`. -/
def digitsLoop (base : Int) : List Char → Int → Except DecodeError Int
  | [], acc => .ok acc
  | c :: cs, acc =>
    match charToDigit c with
    | .error e => .error e
    | .ok d =>
      if base ≤ (d : Int) then .error (.digitOutOfRange c base)
      else digitsLoop base cs (acc * base + (d : Int))

/-- The body of `decodeBigInt` on the already trimmed and lowercased
character list: reject an empty string, strip an optional sign (rejecting a
bare sign via the second `s.length === 0` check), run the digit loop, and
return `negative ? -acc : acc`.  In the no-sign branch `negative` is false,
so the loop result is returned unchanged. -/
def decodeTrimmed (b : Int) : List Char → Except DecodeError Int
  | [] => .error .emptyValueStr
  | c :: rest =>
    if c = '+' ∨ c = '-' then
      if rest = [] then .error .onlySignNoDigits
      else (digitsLoop b rest 0).map (fun acc => if c = '-' then -acc else acc)
    else digitsLoop b (c :: rest) 0

/-- The body of `decodeBigInt` after base validation: apply
`valueStr.trim().toLowerCase()` and decode the resulting characters. -/
def decodeCore (b : Int) (valueStr : String) : Except DecodeError Int :=
  decodeTrimmed b ((jsTrim valueStr.data).map Char.toLower)

/-- `decodeBigInt` from the source: validate the base via
`parseInt(baseStr, 10)` plus the `Number.isInteger` / range check, then run
`decodeCore` on the value string. -/
def decodeBigInt (baseStr valueStr : String) : Except DecodeError Int :=
  match parseIntBase10 baseStr with
  | none => .error (.invalidBase baseStr)
  | some b =>
    if b < 2 ∨ 36 < b then .error (.invalidBase baseStr)
    else decodeCore b valueStr

/-- One pass of the inner loop of `buildPolynomialFromRoots`: multiply the
polynomial with coefficient list `coeffs` (low-to-high) by `(x - r)`.
Entry `i` of the result receives `-r * coeffs[i]` (from the loop body's
first statement) plus `coeffs[i-1]` (from its second statement, shifted);
the two shifted copies are aligned by padding, exactly as the source's
zero-filled `newCoeffs` of length `coeffs.length + 1`. -/
def mulLinear (r : Int) (coeffs : List Int) : List Int :=
  List.zipWith (fun a b => a + b) (coeffs.map (fun c => -r * c) ++ [0]) (0 :: coeffs)

/-- `buildPolynomialFromRoots` from the source: start from the constant
polynomial `[1]` and multiply by `(x - r)` for each root in list order. -/
def buildPolynomialFromRoots (roots : List Int) : List Int :=
  roots.foldl (fun coeffs r => mulLinear r coeffs) [1]

/-- One root entry of a test case: a base specifier and a digit string. -/
structure Entry where
  base : String
  value : String
deriving DecidableEq, Repr

/-- A test case: `keys.n`, `keys.k` (JSON numbers, integral in every input
this program accepts as meaningful), and the entries keyed `"1"`..; absent
keys are `none`, matching the source's `if (tc[key])` presence test. -/
structure TestCase where
  n : Int
  k : Int
  entries : Nat → Option Entry

/-- The failures `processSingleTestCase` can raise: a decoder error
propagated out of the root-collection loop, or too few roots. -/
inductive CaseError where
  | decodeErr (e : DecodeError)
  | insufficientRoots (need : Int) (found : Nat)
deriving DecidableEq, Repr

/-- The record returned for a successful test case (the source additionally
renders every number to decimal text for serialization; the numeric content
is modelled). -/
structure CaseResult where
  n : Int
  k : Int
  degree : Int
  usedRoots : List Int
  coeffsLowToHigh : List Int
  coeffsHighToLow : List Int
deriving DecidableEq, Repr

/-- The key scan order of the source's collection loop:
`for (let i = 1; i <= n; i++)`, empty when `n < 1`. -/
def caseIdxs (n : Int) : List Nat :=
  (List.range n.toNat).map (fun i => i + 1)

/-- The root-collection loop: walk the given keys in order, skip absent
entries, decode present ones, and propagate the first decoder error. -/
def decodeCandidates (tc : TestCase) : List Nat → Except DecodeError (List Int)
  | [] => .ok []
  | i :: is =>
    match tc.entries i with
    | none => decodeCandidates tc is
    | some e =>
      match decodeBigInt e.base e.value with
      | .error err => .error err
      | .ok v =>
        match decodeCandidates tc is with
        | .error err => .error err
        | .ok vs => .ok (v :: vs)

/-- JavaScript `arr.slice(0, e)` for an integer `e`: a negative end counts
from the end of the array (clamped at 0). -/
def jsSliceFromZero (l : List Int) (e : Int) : List Int :=
  if e < 0 then l.take ((l.length : Int) + e).toNat else l.take e.toNat

/-- `processSingleTestCase` from the source: decode every present entry with
key `1..n` (in that order), fail if fewer than `degree = k - 1` roots were
found, then synthesize coefficients from `roots.slice(0, degree)` and derive
the reversed view. -/
def processSingleTestCase (tc : TestCase) : Except CaseError CaseResult :=
  let degree := tc.k - 1
  match decodeCandidates tc (caseIdxs tc.n) with
  | .error e => .error (.decodeErr e)
  | .ok roots =>
    if (roots.length : Int) < degree then
      .error (.insufficientRoots degree roots.length)
    else
      let usedRoots := jsSliceFromZero roots degree
      let coeffsLowToHigh := buildPolynomialFromRoots usedRoots
      .ok ⟨tc.n, tc.k, degree, usedRoots, coeffsLowToHigh, coeffsLowToHigh.reverse⟩

/-- Specification-side predicate (§4.1, for the refinement claims): a
character that is case-insensitively a digit `0`-`9` or a letter `a`-`z`. -/
def isDigitChar (c : Char) : Prop :=
  ('0' ≤ c.toLower ∧ c.toLower ≤ '9') ∨ ('a' ≤ c.toLower ∧ c.toLower ≤ 'z')

instance : DecidablePred isDigitChar := fun c => by
  unfold isDigitChar
  infer_instance

/-- Specification-side digit value (§4.1): case-insensitively `0`-`9` map to
0-9 and `a`-`z` map to 10-35. -/
def specDigitVal (c : Char) : Nat :=
  if '0' ≤ c.toLower ∧ c.toLower ≤ '9' then c.toLower.toNat - '0'.toNat
  else 10 + (c.toLower.toNat - 'a'.toNat)

/-- Specification-side positional value (§4.1): the left-to-right fold
`acc ↦ acc * base + digit` starting from 0. -/
def specFoldValue (b : Int) (ds : List Char) : Int :=
  ds.foldl (fun acc c => acc * b + (specDigitVal c : Int)) 0

/-- Coefficient of `x^i` in a low-to-high coefficient list (0 beyond the
end). -/
def coeffAt (cs : List Int) (i : Nat) : Int := cs.getD i 0

/-! A small mutable-store model for the frame claim about
`buildPolynomialFromRoots`: JavaScript arrays live in a store addressed by
references, and each `newCoeffs[...] += ...` statement is an explicit
read-modify-write on the store. -/

/-- A store of JavaScript arrays; a reference is an index into it. -/
abbrev Heap := List (List Int)

/-- The array a reference designates (absent references read as empty). -/
def heapArr (h : Heap) (ref : Nat) : List Int := h.getD ref []

/-- Read element `i` of the array at `ref`. -/
def heapRead (h : Heap) (ref i : Nat) : Int := (heapArr h ref).getD i 0

/-- Write element `i` of the array at `ref`. -/
def heapWrite (h : Heap) (ref i : Nat) (v : Int) : Heap :=
  h.set ref ((heapArr h ref).set i v)

/-- Allocate a fresh array, returning the extended store and its
reference. -/
def heapAlloc (h : Heap) (a : List Int) : Heap × Nat := (h ++ [a], h.length)

/-- The inner loop of `buildPolynomialFromRoots` as store operations, at
loop index `i` with `cnt` iterations remaining:
`newCoeffs[i] += -r * coeffs[i]; newCoeffs[i+1] += coeffs[i]`. -/
def innerWrites (r : Int) (cRef nRef : Nat) : Nat → Nat → Heap → Heap
  | 0, _, h => h
  | cnt + 1, i, h =>
    let h1 := heapWrite h nRef i (heapRead h nRef i + -r * heapRead h cRef i)
    let h2 := heapWrite h1 nRef (i + 1) (heapRead h1 nRef (i + 1) + heapRead h1 cRef i)
    innerWrites r cRef nRef cnt (i + 1) h2

/-- The outer loop of `buildPolynomialFromRoots` as store operations: for
each root, allocate the zero-filled `newCoeffs` of length
`coeffs.length + 1`, run the inner loop, and continue with the new array as
the current coefficients. -/
def outerSteps : List Int → Nat → Heap → Heap × Nat
  | [], cRef, h => (h, cRef)
  | r :: rs, cRef, h =>
    let len := (heapArr h cRef).length
    let alloc := heapAlloc h (List.replicate (len + 1) 0)
    let h2 := innerWrites r cRef alloc.2 len 0 alloc.1
    outerSteps rs alloc.2 h2

/-- `buildPolynomialFromRoots` on the store: allocate `[1]`, then iterate
over the (never written) root array designated by `rootsRef`. -/
def buildPolynomialFromRootsHeap (h : Heap) (rootsRef : Nat) : Heap × Nat :=
  let alloc := heapAlloc h [1]
  outerSteps (heapArr h rootsRef) alloc.2 alloc.1

/-! Concrete inputs used by the closed theorems below. -/

def bsOne : String := "1"
def bsTwo : String := "2"
def bsTen : String := "10"
def bsSixteen : String := "16"
def bsThirtySeven : String := "37"
def bsTwoPointFive : String := "2.5"
def vZero : String := "0"
def vEmpty : String := ""
def vPlus : String := "+"
def vTwo : String := "2"
def vOneOne : String := "11"
def vSpaceFive : String := " 5"
def vTwoFive : String := "25"
def vMinusSpaceFive : String := "- 5"
def vFour : String := "4"
def vFive : String := "5"
def vSeven : String := "7"

def entTenFour : Entry := ⟨bsTen, vFour⟩
def entTenFive : Entry := ⟨bsTen, vFive⟩
def entTenSeven : Entry := ⟨bsTen, vSeven⟩
def entBadBase : Entry := ⟨bsOne, vZero⟩

/-- Test case with `n = 2`, `k = 2` (degree 1) whose two entries are both
well formed; only the first is needed. -/
def tcGood : TestCase :=
  ⟨2, 2, fun i => if i = 1 then some entTenFour
                  else if i = 2 then some entTenFive else none⟩

/-- Same as `tcGood` except the unneeded second entry holds a different
well-formed value. -/
def tcGoodAlt : TestCase :=
  ⟨2, 2, fun i => if i = 1 then some entTenFour
                  else if i = 2 then some entTenSeven else none⟩

/-- Same as `tcGood` except the unneeded second entry has the malformed
base `"1"`. -/
def tcBad : TestCase :=
  ⟨2, 2, fun i => if i = 1 then some entTenFour
                  else if i = 2 then some entBadBase else none⟩

end PolynomialSolver
namespace PolynomialSolver

theorem char_eq_iff_toNat {a b : Char} : a = b ↔ a.toNat = b.toNat := by
  constructor
  · intro h; rw [h]
  · intro h
    have h2 := congrArg Char.ofNat h
    rwa [Char.ofNat_toNat, Char.ofNat_toNat] at h2

theorem char_le_iff_toNat {a b : Char} : a ≤ b ↔ a.toNat ≤ b.toNat := by
  rw [Char.le_def]; exact Iff.rfl

theorem char_ofNat_toNat {n : Nat} (h : n < 0xd800) : (Char.ofNat n).toNat = n := by
  unfold Char.ofNat
  rw [dif_pos (Or.inl h)]
  rfl

theorem toLower_toNat_upper {c : Char} (h1 : 65 ≤ c.toNat) (h2 : c.toNat ≤ 90) :
    c.toLower.toNat = c.toNat + 32 := by
  unfold Char.toLower
  rw [if_pos ⟨h1, h2⟩]
  exact char_ofNat_toNat (by omega)

theorem toLower_eq_self {c : Char} (h : ¬ (65 ≤ c.toNat ∧ c.toNat ≤ 90)) : c.toLower = c := by
  unfold Char.toLower
  rw [if_neg h]

theorem toLower_toNat_cases (c : Char) :
    c.toLower.toNat = c.toNat ∨
      (65 ≤ c.toNat ∧ c.toNat ≤ 90 ∧ c.toLower.toNat = c.toNat + 32) := by
  by_cases h : 65 ≤ c.toNat ∧ c.toNat ≤ 90
  · exact Or.inr ⟨h.1, h.2, toLower_toNat_upper h.1 h.2⟩
  · exact Or.inl (by rw [toLower_eq_self h])

theorem toLower_idem (c : Char) : c.toLower.toLower = c.toLower := by
  rcases toLower_toNat_cases c with h | ⟨h1, h2, h3⟩
  · have hc : c.toLower = c := char_eq_iff_toNat.mpr h
    rw [hc]; exact hc
  · exact toLower_eq_self (by omega)

theorem jsWs_eq_false_of_range {c : Char} (h1 : 43 ≤ c.toNat) (h2 : c.toNat ≤ 122) :
    jsWs c = false := by
  unfold jsWs jsWsCodes
  simp only [List.contains, List.elem_eq_mem, decide_eq_false_iff_not, List.mem_cons,
    List.not_mem_nil, or_false]
  omega

theorem char_lit_codes :
    ('0' : Char).toNat = 48 ∧ ('9' : Char).toNat = 57 ∧ ('a' : Char).toNat = 97
      ∧ ('z' : Char).toNat = 122 ∧ ('+' : Char).toNat = 43 ∧ ('-' : Char).toNat = 45 := by
  decide

theorem digit_char_toLower_ranges {c : Char} (h : isDigitChar c) :
    (48 ≤ c.toLower.toNat ∧ c.toLower.toNat ≤ 57) ∨
      (97 ≤ c.toLower.toNat ∧ c.toLower.toNat ≤ 122) := by
  obtain ⟨h0, h9, ha, hz, -, -⟩ := char_lit_codes
  rcases h with ⟨hl, hr⟩ | ⟨hl, hr⟩
  · rw [char_le_iff_toNat, h0] at hl
    rw [char_le_iff_toNat, h9] at hr
    exact Or.inl ⟨hl, hr⟩
  · rw [char_le_iff_toNat, ha] at hl
    rw [char_le_iff_toNat, hz] at hr
    exact Or.inr ⟨hl, hr⟩

theorem digit_char_bounds {c : Char} (h : isDigitChar c) :
    48 ≤ c.toNat ∧ c.toNat ≤ 122 := by
  have hr := digit_char_toLower_ranges h
  rcases toLower_toNat_cases c with hc | ⟨h1, h2, _⟩ <;> omega

theorem digit_char_not_ws {c : Char} (h : isDigitChar c) : jsWs c = false := by
  have hb := digit_char_bounds h
  exact jsWs_eq_false_of_range (by omega) hb.2

theorem toLower_not_sign {c : Char} (h : isDigitChar c) :
    ¬ (c.toLower = '+' ∨ c.toLower = '-') := by
  have hr := digit_char_toLower_ranges h
  obtain ⟨-, -, -, -, hp, hm⟩ := char_lit_codes
  rintro (hs | hs) <;> rw [char_eq_iff_toNat] at hs <;> omega

theorem charToDigit_toLower {c : Char} (h : isDigitChar c) :
    charToDigit c.toLower = .ok (specDigitVal c) := by
  unfold charToDigit specDigitVal
  rw [toLower_idem]
  rcases h with hd | hl
  · rw [if_pos hd, if_pos hd]
  · have hnd : ¬ ('0' ≤ c.toLower ∧ c.toLower ≤ '9') := by
      obtain ⟨-, h0, ha, -, -, -⟩ := char_lit_codes
      rintro ⟨_, hr⟩
      rw [char_le_iff_toNat] at hr hl
      omega
    rw [if_neg hnd, if_neg hnd, if_pos hl]

theorem jsTrimEnd_cons_not_ws {c : Char} (h : jsWs c = false) (cs : List Char) :
    jsTrimEnd (c :: cs) = c :: jsTrimEnd cs := by
  have hcond : ¬ (jsTrimEnd cs = [] ∧ jsWs c = true) := by
    rintro ⟨-, hw⟩
    rw [h] at hw
    exact Bool.false_ne_true hw
  simp only [jsTrimEnd]
  rw [if_neg hcond]

theorem jsTrimEnd_eq_self {l : List Char} (h : ∀ c ∈ l, jsWs c = false) :
    jsTrimEnd l = l := by
  induction l with
  | nil => rfl
  | cons c cs ih =>
    rw [jsTrimEnd_cons_not_ws (h c (by simp)) cs, ih (fun x hx => h x (by simp [hx]))]

theorem dropWhile_ws_eq_self {l : List Char} (h : ∀ c ∈ l, jsWs c = false) :
    l.dropWhile (fun c => jsWs c) = l := by
  cases l with
  | nil => rfl
  | cons c cs => simp [List.dropWhile_cons, h c (by simp)]

theorem jsTrim_eq_self {l : List Char} (h : ∀ c ∈ l, jsWs c = false) :
    jsTrim l = l := by
  unfold jsTrim
  rw [dropWhile_ws_eq_self h, jsTrimEnd_eq_self h]

theorem parse_toString {b : Int} (h2 : 2 ≤ b) (h36 : b ≤ 36) :
    parseIntBase10 (toString b) = some b := by
  interval_cases b <;> decide

theorem decodeBigInt_valid {bs : String} {b : Int} (hb : parseIntBase10 bs = some b)
    (h2 : 2 ≤ b) (h36 : b ≤ 36) (v : String) :
    decodeBigInt bs v = decodeCore b v := by
  unfold decodeBigInt
  rw [hb]
  exact if_neg (by omega)

theorem digitsLoop_map_toLower {b : Int} :
    ∀ (ds : List Char) (acc : Int),
      (∀ c ∈ ds, isDigitChar c ∧ (specDigitVal c : Int) < b) →
      digitsLoop b (ds.map Char.toLower) acc
        = .ok (ds.foldl (fun a c => a * b + (specDigitVal c : Int)) acc) := by
  intro ds
  induction ds with
  | nil => intro acc _; rfl
  | cons c cs ih =>
    intro acc h
    have hc := h c (by simp)
    simp only [List.map_cons, digitsLoop, charToDigit_toLower hc.1]
    rw [if_neg (by omega), ih _ (fun x hx => h x (by simp [hx])), List.foldl_cons]


theorem map_toLower_ne_nil {ds : List Char} (h : ds ≠ []) :
    ds.map Char.toLower ≠ [] := by
  cases ds with
  | nil => exact absurd rfl h
  | cons d ds => simp

/-- C3: for every base `b` in `[2, 36]` and every trimmed digit string made
of an optional sign followed by one or more valid digits for `b`, decoding
returns the exact signed positional value: the left-to-right fold
`acc = acc * b + digit` from 0, negated exactly when the sign is `-`, in
unbounded integer arithmetic. -/
theorem decode_matches_positional_spec (b : Int) (h2 : 2 ≤ b) (h36 : b ≤ 36)
    (sgn ds : List Char) (hsgn : sgn = [] ∨ sgn = ['+'] ∨ sgn = ['-'])
    (hne : ds ≠ [])
    (hd : ∀ c ∈ ds, isDigitChar c ∧ (specDigitVal c : Int) < b) :
    decodeBigInt (toString b) (String.mk (sgn ++ ds)) =
      .ok ((if sgn = ['-'] then -1 else 1) * specFoldValue b ds) := by
  rw [decodeBigInt_valid (parse_toString h2 h36) h2 h36]
  have hws : ∀ c ∈ sgn ++ ds, jsWs c = false := by
    intro c hc
    rcases List.mem_append.mp hc with h | h
    · rcases hsgn with rfl | rfl | rfl
      · simp at h
      · simp at h; rw [h]; rfl
      · simp at h; rw [h]; rfl
    · exact digit_char_not_ws (hd c h).1
  have htrim : jsTrim (String.mk (sgn ++ ds)).data = sgn ++ ds := jsTrim_eq_self hws
  unfold decodeCore
  rw [htrim]
  rcases hsgn with rfl | rfl | rfl
  · cases ds with
    | nil => exact absurd rfl hne
    | cons d ds =>
      simp only [List.nil_append, List.map_cons, decodeTrimmed]
      rw [if_neg (toLower_not_sign (hd d (by simp)).1)]
      rw [← List.map_cons, digitsLoop_map_toLower (d :: ds) 0 hd]
      rw [if_neg (by simp), one_mul]
      rfl
  · cases ds with
    | nil => exact absurd rfl hne
    | cons d ds =>
      simp only [List.cons_append, List.nil_append, List.map_cons, decodeTrimmed]
      rw [if_pos (by left; rfl)]
      rw [if_neg (by simp)]
      rw [← List.map_cons, digitsLoop_map_toLower (d :: ds) 0 hd]
      have hlow : ('+' : Char).toLower = '+' := rfl
      simp only [Except.map, hlow]
      simp [specFoldValue]
  · cases ds with
    | nil => exact absurd rfl hne
    | cons d ds =>
      simp only [List.cons_append, List.nil_append, List.map_cons, decodeTrimmed]
      rw [if_pos (by right; rfl)]
      rw [if_neg (by simp)]
      rw [← List.map_cons, digitsLoop_map_toLower (d :: ds) 0 hd]
      have hlow : ('-' : Char).toLower = '-' := rfl
      simp only [Except.map, hlow]
      simp [specFoldValue]

theorem mulLinear_length (r : Int) (cs : List Int) :
    (mulLinear r cs).length = cs.length + 1 := by
  simp [mulLinear]

theorem mulLinear_ne_nil (r : Int) (cs : List Int) : mulLinear r cs ≠ [] := by
  intro hc
  have h := mulLinear_length r cs
  rw [hc] at h
  simp at h

theorem zip_coeffAt (r : Int) : ∀ (cs : List Int) (x : Int) (i : Nat),
    coeffAt (List.zipWith (fun a b => a + b) (cs.map (fun c => -r * c) ++ [0]) (x :: cs)) i
      = -r * coeffAt cs i + (if i = 0 then x else coeffAt cs (i - 1)) := by
  intro cs
  induction cs with
  | nil =>
    intro x i
    cases i with
    | zero => simp [coeffAt]
    | succ j => simp [coeffAt]
  | cons c cs ih =>
    intro x i
    simp only [List.map_cons, List.cons_append, List.zipWith_cons_cons]
    cases i with
    | zero => simp [coeffAt]
    | succ j =>
      simp only [coeffAt, List.getD_cons_succ]
      have hih := ih c j
      simp only [coeffAt] at hih
      rw [hih]
      cases j with
      | zero => simp
      | succ jj => simp

theorem mulLinear_coeffAt (r : Int) (cs : List Int) (i : Nat) :
    coeffAt (mulLinear r cs) i
      = -r * coeffAt cs i + (if i = 0 then 0 else coeffAt cs (i - 1)) :=
  zip_coeffAt r cs 0 i

theorem coeffAt_eq_zero_of_le {cs : List Int} {i : Nat} (h : cs.length ≤ i) :
    coeffAt cs i = 0 := by
  simp [coeffAt, List.getD_eq_getElem?_getD, List.getElem?_eq_none h]

theorem mulLinear_comm (a b : Int) (cs : List Int) :
    mulLinear a (mulLinear b cs) = mulLinear b (mulLinear a cs) := by
  apply List.ext_getElem
  · simp [mulLinear_length]
  · intro n h1 h2
    rw [← List.getD_eq_getElem _ 0 h1, ← List.getD_eq_getElem _ 0 h2]
    show coeffAt (mulLinear a (mulLinear b cs)) n = coeffAt (mulLinear b (mulLinear a cs)) n
    simp only [mulLinear_coeffAt]
    cases n with
    | zero => simp; ring
    | succ j =>
      cases j with
      | zero => simp; ring
      | succ jj => simp; ring

theorem build_go_headI : ∀ (rs : List Int) (c : Int) (cs : List Int),
    (List.foldl (fun a r => mulLinear r a) (c :: cs) rs).headI
      = c * ((rs.map (fun r => -r)).prod) := by
  intro rs
  induction rs with
  | nil => intro c cs; simp
  | cons r rs ih =>
    intro c cs
    rw [List.foldl_cons]
    have hm : mulLinear r (c :: cs)
        = (-r * c) :: List.zipWith (fun a b => a + b)
            (cs.map (fun z => -r * z) ++ [0]) (c :: cs) := by
      simp [mulLinear]
    rw [hm, ih]
    simp only [List.map_cons, List.prod_cons]
    ring

theorem build_go_length : ∀ (rs cs : List Int),
    (List.foldl (fun a r => mulLinear r a) cs rs).length = cs.length + rs.length := by
  intro rs
  induction rs with
  | nil => intro cs; simp
  | cons r rs ih =>
    intro cs
    rw [List.foldl_cons, ih, mulLinear_length]
    simp only [List.length_cons]
    omega

theorem build_go_leading : ∀ (rs cs : List Int), cs ≠ [] →
    coeffAt cs (cs.length - 1) = 1 →
    coeffAt (List.foldl (fun a r => mulLinear r a) cs rs) (cs.length + rs.length - 1) = 1 := by
  intro rs
  induction rs with
  | nil => intro cs _ h; simpa using h
  | cons r rs ih =>
    intro cs hne hlast
    rw [List.foldl_cons]
    have hlen : cs.length ≠ 0 := fun h => hne (List.eq_nil_of_length_eq_zero h)
    have hstep : coeffAt (mulLinear r cs) ((mulLinear r cs).length - 1) = 1 := by
      rw [mulLinear_length]
      simp only [Nat.add_sub_cancel]
      rw [mulLinear_coeffAt, coeffAt_eq_zero_of_le (Nat.le_refl _), if_neg hlen]
      rw [hlast]
      ring
    have := ih (mulLinear r cs) (mulLinear_ne_nil r cs) hstep
    rw [mulLinear_length] at this
    have harith : cs.length + 1 + rs.length - 1 = cs.length + (rs.length + 1) - 1 := by omega
    rwa [harith] at this

theorem getLastD_default_irrel (c : Int) (l : List Int) (a b : Int) :
    (c :: l).getLastD a = (c :: l).getLastD b := by
  rw [List.getLastD_cons, List.getLastD_cons]

theorem getLastD_eq_coeffAt : ∀ (l : List Int), l ≠ [] →
    l.getLastD 0 = coeffAt l (l.length - 1) := by
  intro l
  induction l with
  | nil => intro h; exact absurd rfl h
  | cons c cs ih =>
    intro _
    cases cs with
    | nil => rfl
    | cons d cs =>
      rw [List.getLastD_cons, getLastD_default_irrel d cs c 0, ih (by simp)]
      simp only [coeffAt, List.length_cons, Nat.add_sub_cancel, List.getD_cons_succ]

theorem getD_zero_eq_headI (l : List Int) : l.getD 0 0 = l.headI := by
  cases l <;> rfl

/-- C4: for every root list, the constant term (index 0) of the synthesized
low-to-high coefficient list equals `(-1)^m` times the product of the roots
(empty product 1). -/
theorem constant_term_vieta (rs : List Int) :
    (buildPolynomialFromRoots rs).getD 0 0 = (-1) ^ rs.length * rs.prod := by
  rw [getD_zero_eq_headI]
  unfold buildPolynomialFromRoots
  rw [build_go_headI rs 1 []]
  have hmap : rs.map (fun r => -r) = rs.map Neg.neg := rfl
  rw [hmap, List.prod_map_neg, one_mul]

/-- C5: the synthesizer returns `m + 1` coefficients whose last entry (the
leading coefficient) is exactly 1, and the empty root list yields `[1]`. -/
theorem synthesizer_length_monic (rs : List Int) :
    (buildPolynomialFromRoots rs).length = rs.length + 1
      ∧ (buildPolynomialFromRoots rs).getLastD 0 = 1
      ∧ buildPolynomialFromRoots ([] : List Int) = [1] := by
  have hlen : (buildPolynomialFromRoots rs).length = rs.length + 1 := by
    unfold buildPolynomialFromRoots
    rw [build_go_length]
    simp [Nat.add_comm]
  refine ⟨hlen, ?_, rfl⟩
  have hne : buildPolynomialFromRoots rs ≠ [] := by
    intro h
    rw [h] at hlen
    simp at hlen
  rw [getLastD_eq_coeffAt _ hne, hlen]
  have h := build_go_leading rs [1] (by simp) rfl
  unfold buildPolynomialFromRoots
  convert h using 2
  simp

/-- C8: the synthesized coefficient list is invariant under permutation of
the root list. -/
theorem build_perm_invariant (rs rs' : List Int) (hp : rs.Perm rs') :
    buildPolynomialFromRoots rs = buildPolynomialFromRoots rs' := by
  unfold buildPolynomialFromRoots
  exact hp.foldl_eq' (fun x _ y _ z => mulLinear_comm y x z) [1]

/-- Witness for C8 at the concrete permutation `[2, 3] ~ [3, 2]`. -/
theorem build_perm_invariant_witness :
    ([2, 3] : List Int).Perm [3, 2]
      ∧ buildPolynomialFromRoots [2, 3] = buildPolynomialFromRoots [3, 2] :=
  ⟨List.Perm.swap 3 2 [], build_perm_invariant [2, 3] [3, 2] (List.Perm.swap 3 2 [])⟩

/-- C6: the five boundary calls are rejected with the specified error kinds:
`InvalidBase` for bases 1 and 37, `EmptyValue` for the empty string and the
bare sign, `DigitOutOfRange` for digit 2 in base 2. -/
theorem boundary_rejections :
    decodeBigInt bsOne vZero = .error (.invalidBase bsOne)
      ∧ decodeBigInt bsThirtySeven vZero = .error (.invalidBase bsThirtySeven)
      ∧ decodeBigInt bsTen vEmpty = .error .emptyValueStr
      ∧ decodeBigInt bsTen vPlus = .error .onlySignNoDigits
      ∧ decodeBigInt bsTwo vTwo = .error (.digitOutOfRange '2' 2)
      ∧ (DecodeError.invalidBase bsOne).kind = .invalidBase
      ∧ (DecodeError.invalidBase bsThirtySeven).kind = .invalidBase
      ∧ DecodeError.emptyValueStr.kind = .emptyValue
      ∧ DecodeError.onlySignNoDigits.kind = .emptyValue
      ∧ (DecodeError.digitOutOfRange '2' 2).kind = .digitOutOfRange :=
  ⟨by decide, by decide, by decide, by decide, by decide, rfl, rfl, rfl, rfl, rfl⟩

theorem charToDigit_error {c : Char} {e : DecodeError} (h : charToDigit c = .error e) :
    e = .invalidDigitChar c.toLower := by
  unfold charToDigit at h
  by_cases h1 : '0' ≤ c.toLower ∧ c.toLower ≤ '9'
  · rw [if_pos h1] at h; cases h
  · rw [if_neg h1] at h
    by_cases h2 : 'a' ≤ c.toLower ∧ c.toLower ≤ 'z'
    · rw [if_pos h2] at h; cases h
    · rw [if_neg h2] at h
      injection h with h3
      exact h3.symm

theorem digitsLoop_error_kind {b : Int} : ∀ {l : List Char} {acc : Int} {e : DecodeError},
    digitsLoop b l acc = .error e → e.kind ≠ ErrKind.invalidBase := by
  intro l
  induction l with
  | nil => intro acc e h; cases h
  | cons c cs ih =>
    intro acc e h
    cases hc : charToDigit c with
    | error e2 =>
      simp only [digitsLoop, hc] at h
      injection h with h2
      subst h2
      rw [charToDigit_error hc]
      simp [DecodeError.kind]
    | ok d =>
      simp only [digitsLoop, hc] at h
      by_cases hd : b ≤ (d : Int)
      · rw [if_pos hd] at h
        injection h with h2
        subst h2
        simp [DecodeError.kind]
      · rw [if_neg hd] at h
        exact ih h

theorem decodeTrimmed_error_kind {b : Int} : ∀ {l : List Char} {e : DecodeError},
    decodeTrimmed b l = .error e → e.kind ≠ ErrKind.invalidBase := by
  intro l e h
  cases l with
  | nil =>
    simp only [decodeTrimmed] at h
    injection h with h2
    subst h2
    decide
  | cons c rest =>
    simp only [decodeTrimmed] at h
    by_cases hs : c = '+' ∨ c = '-'
    · rw [if_pos hs] at h
      by_cases hr : rest = []
      · rw [if_pos hr] at h
        injection h with h2
        subst h2
        decide
      · rw [if_neg hr] at h
        cases hd : digitsLoop b rest 0 with
        | error e2 =>
          rw [hd] at h
          simp only [Except.map] at h
          injection h with h2
          subst h2
          exact digitsLoop_error_kind hd
        | ok acc =>
          rw [hd] at h
          simp only [Except.map] at h
          cases h
    · rw [if_neg hs] at h
      exact digitsLoop_error_kind h

/-- Counterexample to C2 as stated: the base specifier `"2.5"` is neither
an integer nor in [2, 36] as written, yet decoding does not fail with
`InvalidBase`: `parseInt("2.5", 10)` truncates it to 2 and decoding
proceeds in base 2, so `decode("2.5", "11")` succeeds with value 3. -/
theorem invalid_base_counterexample :
    decodeBigInt bsTwoPointFive vOneOne = .ok 3
      ∧ parseIntBase10 bsTwoPointFive = some 2 :=
  ⟨by decide, by decide⟩

/-- Amended C2: decoding fails with an `InvalidBase` error exactly when
`parseInt(baseStr, 10)` yields no integer in [2, 36] (`NaN`, below 2, or
above 36); a base specifier with a well-formed leading integer part — such
as `"2.5"`, truncated to 2 — is accepted and decoding proceeds. -/
theorem invalid_base_amended (bs v : String) :
    (∃ e, decodeBigInt bs v = .error e ∧ e.kind = ErrKind.invalidBase)
      ↔ (∀ b, parseIntBase10 bs = some b → b < 2 ∨ 36 < b) := by
  constructor
  · rintro ⟨e, he, hk⟩ b hb
    by_contra hc
    push_neg at hc
    rw [decodeBigInt_valid hb hc.1 hc.2] at he
    exact decodeTrimmed_error_kind he hk
  · intro hall
    cases hp : parseIntBase10 bs with
    | none =>
      refine ⟨.invalidBase bs, ?_, rfl⟩
      simp only [decodeBigInt, hp]
    | some b =>
      refine ⟨.invalidBase bs, ?_, rfl⟩
      simp only [decodeBigInt, hp]
      rw [if_pos (hall b hp)]

theorem toLower_sign_iff {c : Char} (h : c.toLower = '+' ∨ c.toLower = '-') :
    c = '+' ∨ c = '-' := by
  obtain ⟨-, -, -, -, h43, h45⟩ := char_lit_codes
  rcases toLower_toNat_cases c with hc | ⟨h1, h2, h3⟩
  · rcases h with h | h
    · left
      rw [char_eq_iff_toNat] at h ⊢
      omega
    · right
      rw [char_eq_iff_toNat] at h ⊢
      omega
  · exfalso
    rcases h with h | h <;> rw [char_eq_iff_toNat] at h <;> omega

/-- Counterexample to C7 as stated: with base 10 the string `" 5"` decodes
successfully (to 5) without a sign, but `"-" ++ " 5" = "- 5"` keeps the
space after the sign, so its decode fails on the space character instead of
returning −5. -/
theorem sign_symmetry_counterexample :
    decodeBigInt bsTen vSpaceFive = .ok 5
      ∧ vMinusSpaceFive.data = '-' :: vSpaceFive.data
      ∧ decodeBigInt bsTen vMinusSpaceFive = .error (.invalidDigitChar ' ') :=
  ⟨by decide, by decide, by decide⟩

/-- Amended C7: sign symmetry holds for every value string with no leading
whitespace: if `s` decodes successfully and its first character is not a
sign, then decoding `"-" ++ s` succeeds with the negated value. -/
theorem sign_symmetry_amended (bs v : String) (x : Int)
    (hld : v.data.dropWhile (fun c => jsWs c) = v.data)
    (hsgn : ∀ c, v.data.head? = some c → ¬ (c = '+' ∨ c = '-'))
    (h : decodeBigInt bs v = .ok x) :
    decodeBigInt bs (String.mk ('-' :: v.data)) = .ok (-x) := by
  cases hp : parseIntBase10 bs with
  | none =>
    simp only [decodeBigInt, hp] at h
    cases h
  | some b =>
    by_cases hrange : b < 2 ∨ 36 < b
    · simp only [decodeBigInt, hp] at h
      rw [if_pos hrange] at h
      cases h
    · push_neg at hrange
      rw [decodeBigInt_valid hp hrange.1 hrange.2] at h
      rw [decodeBigInt_valid hp hrange.1 hrange.2]
      unfold decodeCore at h ⊢
      cases hv : v.data with
      | nil =>
        rw [hv] at h
        simp only [jsTrim, List.dropWhile_nil, jsTrimEnd, List.map_nil, decodeTrimmed] at h
        cases h
      | cons c t =>
        rw [hv] at h hld
        have hcw : jsWs c = false := by
          have h0 := List.dropWhile_eq_self_iff.mp hld (by simp)
          simpa using h0
        have htr : jsTrim (c :: t) = c :: jsTrimEnd t := by
          unfold jsTrim
          rw [hld, jsTrimEnd_cons_not_ws hcw]
        rw [htr] at h
        simp only [List.map_cons] at h
        have hnot : ¬ (c.toLower = '+' ∨ c.toLower = '-') :=
          fun hh => hsgn c (by rw [hv]; rfl) (toLower_sign_iff hh)
        rw [decodeTrimmed, if_neg hnot] at h
        show decodeTrimmed b ((jsTrim ('-' :: c :: t)).map Char.toLower) = Except.ok (-x)
        have hmws : jsWs '-' = false := by decide
        have htr2 : jsTrim ('-' :: c :: t) = '-' :: c :: jsTrimEnd t := by
          unfold jsTrim
          rw [List.dropWhile_cons_of_neg (by simp [hmws]),
            jsTrimEnd_cons_not_ws hmws, jsTrimEnd_cons_not_ws hcw]
        rw [htr2]
        simp only [List.map_cons]
        have hml : ('-' : Char).toLower = '-' := rfl
        rw [hml, decodeTrimmed, if_pos (Or.inr rfl), if_neg (by simp), h]
        simp [Except.map]

theorem charToDigit_zero : charToDigit '0' = .ok 0 := by decide

theorem digitsLoop_drop_leading_zeros {b : Int} (h2 : 2 ≤ b) :
    ∀ (k : Nat) (l : List Char),
      digitsLoop b (List.replicate k '0' ++ l) 0 = digitsLoop b l 0 := by
  intro k
  induction k with
  | zero => intro l; rfl
  | succ k ih =>
    intro l
    simp only [List.replicate_succ, List.cons_append, digitsLoop, charToDigit_zero]
    rw [if_neg (by omega)]
    have hacc : (0 : Int) * b + ((0 : Nat) : Int) = 0 := by simp
    rw [hacc]
    exact ih l

/-- C10: for a valid base, prepending any number of `0` characters to a
digit string does not change the decoding outcome, and a string of one or
more zeros with an optional sign decodes to exactly 0 (so `"-0"` yields 0,
never a negative zero). -/
theorem leading_zeros_and_signed_zero (bs : String) (b : Int)
    (hb : parseIntBase10 bs = some b) (h2 : 2 ≤ b) (h36 : b ≤ 36)
    (k : Nat) (ds : List Char) (hne : ds ≠ [])
    (hd : ∀ c ∈ ds, isDigitChar c) (sgn : List Char)
    (hsgn : sgn = [] ∨ sgn = ['+'] ∨ sgn = ['-']) :
    decodeBigInt bs (String.mk (List.replicate k '0' ++ ds))
        = decodeBigInt bs (String.mk ds)
      ∧ decodeBigInt bs (String.mk (sgn ++ List.replicate (k + 1) '0')) = .ok 0 := by
  have hz : isDigitChar '0' := by decide
  constructor
  · rw [decodeBigInt_valid hb h2 h36, decodeBigInt_valid hb h2 h36]
    unfold decodeCore
    have hws : ∀ c ∈ List.replicate k '0' ++ ds, jsWs c = false := by
      intro c hc
      rcases List.mem_append.mp hc with hcz | hcd
      · rw [List.eq_of_mem_replicate hcz]; decide
      · exact digit_char_not_ws (hd c hcd)
    have htrL : jsTrim (String.mk (List.replicate k '0' ++ ds)).data
        = List.replicate k '0' ++ ds := jsTrim_eq_self hws
    have htrR : jsTrim (String.mk ds).data = ds :=
      jsTrim_eq_self (fun c hc => digit_char_not_ws (hd c hc))
    rw [htrL, htrR]
    cases k with
    | zero => rfl
    | succ k =>
      cases ds with
      | nil => exact absurd rfl hne
      | cons d ds =>
        simp only [List.map_append, List.map_replicate, List.map_cons]
        have hl0 : ('0' : Char).toLower = '0' := rfl
        rw [hl0]
        simp only [List.replicate_succ, List.cons_append, decodeTrimmed]
        rw [if_neg (show ¬ ('0' = '+' ∨ '0' = '-') by decide),
          if_neg (toLower_not_sign (hd d (by simp)))]
        rw [← List.cons_append, ← List.replicate_succ]
        rw [digitsLoop_drop_leading_zeros h2]
  · rw [decodeBigInt_valid hb h2 h36]
    unfold decodeCore
    have hws : ∀ c ∈ sgn ++ List.replicate (k + 1) '0', jsWs c = false := by
      intro c hc
      rcases List.mem_append.mp hc with hcs | hcz
      · rcases hsgn with rfl | rfl | rfl
        · simp at hcs
        · simp at hcs; rw [hcs]; rfl
        · simp at hcs; rw [hcs]; rfl
      · rw [List.eq_of_mem_replicate hcz]; decide
    rw [jsTrim_eq_self hws]
    have hl0 : ('0' : Char).toLower = '0' := rfl
    have hloop : digitsLoop b (List.replicate (k + 1) '0') 0 = .ok 0 := by
      have := digitsLoop_drop_leading_zeros h2 (k + 1) []
      rwa [List.append_nil] at this
    rcases hsgn with rfl | rfl | rfl
    · simp only [List.nil_append, List.map_replicate, hl0, List.replicate_succ, List.map_cons,
        decodeTrimmed]
      rw [if_neg (show ¬ ('0' = '+' ∨ '0' = '-') by decide)]
      rw [← List.replicate_succ]
      exact hloop
    · simp only [List.cons_append, List.nil_append, List.map_cons, List.map_replicate, hl0,
        decodeTrimmed]
      have hlp : ('+' : Char).toLower = '+' := rfl
      rw [hlp, if_pos (Or.inl rfl), if_neg (by simp), hloop]
      simp [Except.map]
    · simp only [List.cons_append, List.nil_append, List.map_cons, List.map_replicate, hl0,
        decodeTrimmed]
      have hlm : ('-' : Char).toLower = '-' := rfl
      rw [hlm, if_pos (Or.inr rfl), if_neg (by simp), hloop]
      simp [Except.map]

/-- Counterexample to C1 as stated: `tcGood` and `tcBad` both declare
`n = 2`, `k = 2` (degree 1), both have two candidate entries (at least
`degree`), and agree on the first `degree` entries; only the content of the
extra second entry differs (well-formed in `tcGood`, malformed base `"1"`
in `tcBad`).  Yet the extra entry changes the outcome: `tcGood` succeeds
while `tcBad` fails, because the code decodes every candidate entry before
slicing off the first `degree`. -/
theorem extra_entry_counterexample :
    processSingleTestCase tcGood
        = .ok ⟨2, 2, 1, [4], [-4, 1], [1, -4]⟩
      ∧ processSingleTestCase tcBad = .error (.decodeErr (.invalidBase bsOne)) :=
  ⟨by decide, by decide⟩

/-- Amended C1: every candidate entry with key `1..n` is decoded, so a
decoder error anywhere among them — including beyond the first `degree` —
fails the whole case; but when all candidates decode, the outcome depends
only on `n`, `k`, the number of decoded values, and their first `degree`
values, so the content of well-formed extra entries cannot affect the
produced coefficients. -/
theorem extra_entries_amended :
    (∀ (tc : TestCase) (e : DecodeError),
        decodeCandidates tc (caseIdxs tc.n) = .error e →
        processSingleTestCase tc = .error (.decodeErr e))
      ∧ (∀ (tc tc' : TestCase) (rs rs' : List Int),
          decodeCandidates tc (caseIdxs tc.n) = .ok rs →
          decodeCandidates tc' (caseIdxs tc'.n) = .ok rs' →
          tc.k = tc'.k → 0 ≤ tc.k - 1 →
          (tc.k - 1 : Int) ≤ (rs.length : Int) →
          (tc.k - 1 : Int) ≤ (rs'.length : Int) →
          rs.take (tc.k - 1).toNat = rs'.take (tc.k - 1).toNat →
          Except.map CaseResult.coeffsLowToHigh (processSingleTestCase tc)
            = Except.map CaseResult.coeffsLowToHigh (processSingleTestCase tc')) := by
  constructor
  · intro tc e h
    simp only [processSingleTestCase, h]
  · intro tc tc' rs rs' h1 h2 hk hdeg hlen hlen' htake
    simp only [processSingleTestCase, h1, h2]
    rw [if_neg (by omega), if_neg (by omega)]
    simp only [Except.map]
    unfold jsSliceFromZero
    rw [if_neg (by omega), if_neg (by omega), ← hk, htake]

theorem heapWrite_length (h : Heap) (ref i : Nat) (v : Int) :
    (heapWrite h ref i v).length = h.length := by
  simp [heapWrite]

theorem heapArr_heapWrite_ne {j ref : Nat} (hj : j ≠ ref) (h : Heap) (i : Nat) (v : Int) :
    heapArr (heapWrite h ref i v) j = heapArr h j := by
  simp [heapWrite, heapArr, List.getD_eq_getElem?_getD, List.getElem?_set_ne (Ne.symm hj)]

theorem innerWrites_length (r : Int) (cRef nRef : Nat) :
    ∀ (cnt i : Nat) (h : Heap), (innerWrites r cRef nRef cnt i h).length = h.length := by
  intro cnt
  induction cnt with
  | zero => intro i h; rfl
  | succ cnt ih =>
    intro i h
    simp only [innerWrites]
    rw [ih, heapWrite_length, heapWrite_length]

theorem innerWrites_frame {j nRef : Nat} (hj : j ≠ nRef) (r : Int) (cRef : Nat) :
    ∀ (cnt i : Nat) (h : Heap),
      heapArr (innerWrites r cRef nRef cnt i h) j = heapArr h j := by
  intro cnt
  induction cnt with
  | zero => intro i h; rfl
  | succ cnt ih =>
    intro i h
    simp only [innerWrites]
    rw [ih, heapArr_heapWrite_ne hj, heapArr_heapWrite_ne hj]

theorem outerSteps_length_ge : ∀ (rs : List Int) (cRef : Nat) (h : Heap),
    h.length ≤ (outerSteps rs cRef h).1.length := by
  intro rs
  induction rs with
  | nil => intro cRef h; exact Nat.le_refl _
  | cons r rs ih =>
    intro cRef h
    simp only [outerSteps, heapAlloc]
    refine Nat.le_trans ?_ (ih _ _)
    rw [innerWrites_length]
    simp

theorem outerSteps_frame {j : Nat} : ∀ (rs : List Int) (cRef : Nat) (h : Heap),
    j < h.length → heapArr (outerSteps rs cRef h).1 j = heapArr h j := by
  intro rs
  induction rs with
  | nil => intro cRef h _; rfl
  | cons r rs ih =>
    intro cRef h hj
    simp only [outerSteps, heapAlloc]
    rw [ih]
    · rw [innerWrites_frame (by omega)]
      unfold heapArr
      rw [List.getD_append _ _ _ _ hj]
    · rw [innerWrites_length]
      simp only [List.length_append, List.length_cons, List.length_nil]
      omega

theorem outerSteps_ref : ∀ (rs : List Int) (cRef : Nat) (h : Heap),
    (outerSteps rs cRef h).2 = cRef ∨ h.length ≤ (outerSteps rs cRef h).2 := by
  intro rs
  induction rs with
  | nil => intro cRef h; exact Or.inl rfl
  | cons r rs ih =>
    intro cRef h
    simp only [outerSteps, heapAlloc]
    rcases ih h.length (innerWrites r cRef h.length
        (heapArr h cRef).length 0 (h ++ [List.replicate ((heapArr h cRef).length + 1) 0]))
      with hc | hc
    · rw [hc]
      exact Or.inr (Nat.le_refl _)
    · refine Or.inr (Nat.le_trans ?_ hc)
      rw [innerWrites_length]
      simp

/-- C9 (frame property of the synthesizer, in the mutable-store model):
running `buildPolynomialFromRoots` on the array designated by `rootsRef`
leaves that array exactly as it was, and the returned coefficient array is
a different reference, so result and input share no element position. -/
theorem build_heap_frame (h : Heap) (ref : Nat) (href : ref < h.length) :
    heapArr (buildPolynomialFromRootsHeap h ref).1 ref = heapArr h ref
      ∧ (buildPolynomialFromRootsHeap h ref).2 ≠ ref := by
  unfold buildPolynomialFromRootsHeap heapAlloc
  dsimp only
  constructor
  · rw [outerSteps_frame _ _ _ (by simp; omega)]
    unfold heapArr
    rw [List.getD_append _ _ _ _ href]
  · rcases outerSteps_ref (heapArr h ref) h.length (h ++ [[1]]) with hc | hc
    · omega
    · simp only [List.length_append, List.length_cons, List.length_nil] at hc
      omega

/-- Witness for C9 on the one-array store `[[2, 3]]`. -/
theorem build_heap_frame_witness :
    0 < ([[2, 3]] : Heap).length
      ∧ heapArr (buildPolynomialFromRootsHeap [[2, 3]] 0).1 0 = heapArr [[2, 3]] 0
      ∧ (buildPolynomialFromRootsHeap [[2, 3]] 0).2 ≠ 0 :=
  ⟨by decide,
    (build_heap_frame [[2, 3]] 0 (by decide)).1,
    (build_heap_frame [[2, 3]] 0 (by decide)).2⟩

/-- Witness for C3 at base 16, sign `-`, digits `ff`. -/
theorem decode_matches_positional_spec_witness :
    (2 ≤ (16 : Int)) ∧ ((16 : Int) ≤ 36)
      ∧ ((['-'] : List Char) = [] ∨ (['-'] : List Char) = ['+'] ∨ (['-'] : List Char) = ['-'])
      ∧ ((['f', 'f'] : List Char) ≠ [])
      ∧ (∀ c ∈ (['f', 'f'] : List Char), isDigitChar c ∧ (specDigitVal c : Int) < 16)
      ∧ decodeBigInt (toString (16 : Int)) (String.mk (['-'] ++ ['f', 'f']))
          = .ok ((if (['-'] : List Char) = ['-'] then -1 else 1) * specFoldValue 16 ['f', 'f']) :=
  ⟨by norm_num, by norm_num, by simp, by simp, by decide,
    decode_matches_positional_spec 16 (by norm_num) (by norm_num) ['-'] ['f', 'f']
      (by simp) (by simp) (by decide)⟩

/-- Witness for amended C7 at base 10 and value `"25"`. -/
theorem sign_symmetry_amended_witness :
    (vTwoFive.data.dropWhile (fun c => jsWs c) = vTwoFive.data)
      ∧ (∀ c, vTwoFive.data.head? = some c → ¬ (c = '+' ∨ c = '-'))
      ∧ decodeBigInt bsTen vTwoFive = .ok 25
      ∧ decodeBigInt bsTen (String.mk ('-' :: vTwoFive.data)) = .ok (-25) := by
  have hsgn : ∀ c, vTwoFive.data.head? = some c → ¬ (c = '+' ∨ c = '-') := by
    intro c hc
    rw [show vTwoFive.data = ['2', '5'] from rfl] at hc
    simp only [List.head?_cons, Option.some_inj] at hc
    subst hc
    decide
  exact ⟨by decide, hsgn, by decide,
    sign_symmetry_amended bsTen vTwoFive 25 (by decide) hsgn (by decide)⟩

/-- Witness for C10 at base 16, two leading zeros before `a`, sign `-`. -/
theorem leading_zeros_and_signed_zero_witness :
    (parseIntBase10 bsSixteen = some 16) ∧ (2 ≤ (16 : Int)) ∧ ((16 : Int) ≤ 36)
      ∧ ((['a'] : List Char) ≠ [])
      ∧ (∀ c ∈ (['a'] : List Char), isDigitChar c)
      ∧ ((['-'] : List Char) = [] ∨ (['-'] : List Char) = ['+'] ∨ (['-'] : List Char) = ['-'])
      ∧ (decodeBigInt bsSixteen (String.mk (List.replicate 2 '0' ++ ['a']))
            = decodeBigInt bsSixteen (String.mk ['a'])
        ∧ decodeBigInt bsSixteen (String.mk (['-'] ++ List.replicate (2 + 1) '0')) = .ok 0) :=
  ⟨by decide, by norm_num, by norm_num, by simp, by decide, by simp,
    leading_zeros_and_signed_zero bsSixteen 16 (by decide) (by norm_num) (by norm_num) 2 ['a']
      (by simp) (by decide) ['-'] (by simp)⟩

/-- Witness for amended C1: the malformed extra entry of `tcBad` fails the
case, while the differing well-formed extra entries of `tcGood` and
`tcGoodAlt` leave the coefficients identical. -/
theorem extra_entries_amended_witness :
    (decodeCandidates tcBad (caseIdxs tcBad.n) = .error (.invalidBase bsOne)
        ∧ processSingleTestCase tcBad = .error (.decodeErr (.invalidBase bsOne)))
      ∧ (decodeCandidates tcGood (caseIdxs tcGood.n) = .ok [4, 5]
        ∧ decodeCandidates tcGoodAlt (caseIdxs tcGoodAlt.n) = .ok [4, 7]
        ∧ ([4, 5] : List Int).take (tcGood.k - 1).toNat
            = ([4, 7] : List Int).take (tcGood.k - 1).toNat
        ∧ Except.map CaseResult.coeffsLowToHigh (processSingleTestCase tcGood)
            = Except.map CaseResult.coeffsLowToHigh (processSingleTestCase tcGoodAlt)) :=
  ⟨⟨by decide, extra_entries_amended.1 tcBad (.invalidBase bsOne) (by decide)⟩,
    ⟨by decide, by decide, by decide,
      extra_entries_amended.2 tcGood tcGoodAlt [4, 5] [4, 7] (by decide) (by decide) (by decide)
        (by decide) (by decide) (by decide) (by decide)⟩⟩

/-- Witness for amended C2 at the out-of-range specifier `"37"`. -/
theorem invalid_base_amended_witness :
    ((∃ e, decodeBigInt bsThirtySeven vZero = .error e ∧ e.kind = ErrKind.invalidBase)
        ↔ (∀ b, parseIntBase10 bsThirtySeven = some b → b < 2 ∨ 36 < b))
      ∧ (∃ e, decodeBigInt bsThirtySeven vZero = .error e ∧ e.kind = ErrKind.invalidBase) :=
  have hr : ∀ b, parseIntBase10 bsThirtySeven = some b → b < 2 ∨ 36 < b := by
    intro b hb
    have h37 : parseIntBase10 bsThirtySeven = some 37 := by decide
    rw [h37] at hb
    injection hb with hb2
    omega
  ⟨invalid_base_amended bsThirtySeven vZero,
    (invalid_base_amended bsThirtySeven vZero).mpr hr⟩

end PolynomialSolver
